import Mathlib

/-
Verification of the core of `blob.c`, a minimal line-oriented text editor.

The C program keeps the document as a doubly linked list of `struct line`,
each line owning a doubly linked list of `struct character`.  The editor
state consists of two pointers into that list: `start` (first line) and
`lines` (the current line).  We embed this shallowly:

* a character chain is a `List Char` (the `next` order of the chain);
* a `struct line` node is a `Line`: its chain plus an `id` standing for
  the node identity (the malloc address), so that the pointer comparison
  `*start == line` in `delete_line` can be expressed;
* the reachable doubly linked list together with the current pointer is a
  zipper: `before` holds the lines strictly before the current one in
  reverse order (head of `before` is `current->prev`), `after` holds the
  current line followed by the lines after it (`after = []` models
  `lines == NULL`); the `start` pointer is kept separately as the id of
  the node it points at (`none` models `start == NULL`).
-/

/-- A `struct line` node: node identity (`id`, the malloc address) and the
character chain it owns (`data`). -/
structure Line where
  id : Nat
  data : List Char
deriving DecidableEq

/-- The editor state manipulated through `struct line **start, **lines`:
a zipper for the doubly linked list plus the separate `start` pointer. -/
structure EdState where
  before : List Line
  after : List Line
  start : Option Nat
deriving DecidableEq

/-- The whole buffer in `next` order, from the first line on. -/
def buf (st : EdState) : List Line := st.before.reverse ++ st.after

/-- The line `*lines` points at (`none` models the null pointer). -/
def curLn (st : EdState) : Option Line := st.after.head?

/-- The line `(*lines)->next` points at. -/
def nextLn (st : EdState) : Option Line := (st.after.drop 1).head?

/-- The line `(*lines)->prev` points at. -/
def prevLn (st : EdState) : Option Line := st.before.head?

/-- The scanning loop of `charray_to_line` (blob.c:75-79): consume `src`
until a newline or the end of the string (the NUL byte, modelled by the
end of the list), accumulating the committed characters; also return the
unconsumed remainder so that the post-loop test on `*src` can be made. -/
def charray_loop (acc : List Char) : List Char → List Char × List Char
  | [] => (acc, [])
  | c :: rest => if c = '\n' then (acc, c :: rest) else charray_loop (acc ++ [c]) rest

/-- `charray_to_line` (blob.c:67-91): build the character chain for one raw
input line.  After the loop, if it stopped on `'\n'` or on the NUL byte the
trailing (partially built) node is forced to a space; otherwise that node
is freed and the chain is just the committed characters. -/
def charray_to_line (src : List Char) : List Char :=
  let p := charray_loop [] src
  match p.2 with
  | [] => p.1 ++ [' ']
  | c :: _ => if c = '\n' then p.1 ++ [' '] else p.1

/-- `lines_to_charray` (blob.c:94-121): flatten one line back to a char
array: the chain's characters in order followed by `'\n'` (the final NUL
byte is the string terminator, not content). -/
def lines_to_charray (line : Line) : List Char :=
  line.data ++ ['\n']

/-- The loop of `read_lines` (blob.c:166-176): convert each raw line read
by `getline` with `charray_to_line` and append it to the buffer (the
trailing over-allocated node is trimmed after the loop). -/
def read_loop : List (List Char) → List (List Char)
  | [] => []
  | raw :: rest => charray_to_line raw :: read_loop rest

/-- `create_empty_file` (blob.c:123-134): materialize an empty file; its
content is the empty line list. -/
def create_empty_file : List (List Char) := []

/-- The outcome of `fopen(fname, "r")` at the top of `read_lines`. -/
inductive FileStatus where
  | found (content : List (List Char))
  | notFound
  | ioError
deriving DecidableEq

/-- `read_lines` (blob.c:137-195): on `ENOENT` the file is created empty
and zero lines are read; on any other open failure the process exits with
failure (modelled by `Except.error`).  Returns the loaded buffer (as the
list of character chains) together with the on-disk file content after the
call.  A file with zero lines yields the empty buffer (`*dest = NULL`). -/
def read_lines : FileStatus → Except Unit (List (List Char) × List (List Char))
  | .found content => .ok (read_loop content, content)
  | .notFound => .ok (read_loop create_empty_file, create_empty_file)
  | .ioError => .error ()

/-- The `'n'` case of `run_instructions` (blob.c:355-366): if `*lines` is
null or has no next line, fail with `-1` leaving the cursor unchanged;
otherwise move `*lines` to the next line. -/
def advance (st : EdState) : EdState × Int :=
  match st.after with
  | [] => (st, -1)
  | _ :: [] => (st, -1)
  | c :: c2 :: rest => (⟨c :: st.before, c2 :: rest, st.start⟩, 0)

/-- The `'b'` case of `run_instructions` (blob.c:367-378): if `*lines` is
null or has no previous line, fail with `-2` leaving the cursor unchanged;
otherwise move `*lines` to the previous line. -/
def retreat (st : EdState) : EdState × Int :=
  match st.after with
  | [] => (st, -2)
  | c :: rest =>
    match st.before with
    | [] => (st, -2)
    | p :: ps => (⟨ps, p :: c :: rest, st.start⟩, 0)

/-- `delete_line` (blob.c:317-348).  Null current is a no-op returning
null.  Otherwise: if `*start == line` then `*start = line->next`; the
relinking of the neighbours removes the current node from the list; `ret`
is set to `line->next` when it exists and then overwritten with
`line->prev` when that exists, and is null when the node had no
neighbours. -/
def delete_line (st : EdState) : EdState :=
  match st.after with
  | [] => st
  | cur :: rest =>
    let start' := if st.start = some cur.id then rest.head?.map Line.id else st.start
    match st.before with
    | [] => ⟨[], rest, start'⟩
    | p :: ps => ⟨ps, p :: rest, start'⟩

/-- The body of the insertion loop of `insert_line` (blob.c:292-313) for
one committed raw line: if the buffer is empty the new line becomes both
`*start` and `*lines` with no links, else it is linked immediately after
the current line and `*lines` advances to it. -/
def insert_one (st : EdState) (new_line : Line) : EdState :=
  match st.after with
  | [] => ⟨[], [new_line], some new_line.id⟩
  | cur :: rest => ⟨cur :: st.before, new_line :: rest, st.start⟩

/-- The `while (!stop_insertion)` loop of `insert_line` (blob.c:276-314).
Each event `(sig, ln)` is one iteration: `ln` is the raw line read by
`getline` and `sig` records whether the SIGINT handler fired during that
blocking read (the flag is sticky once set).  The flag is re-checked at
the top of the loop and polled again after each read, before the line is
committed; when the poll sees the flag, the pending line is discarded and
the loop exits. -/
def insert_session (st : EdState) (stop : Bool) : List (Bool × Line) → EdState
  | [] => st
  | (sig, ln) :: rest =>
    if stop then st
    else
      let stop' := stop || sig
      if stop' then st
      else insert_session (insert_one st ln) stop' rest

/-- `insert_line` (blob.c:269-315): the insertion session.  Whatever value
the process-wide `stop_insertion` flag had on entry, it is cleared
(`stop_insertion = 0;`, blob.c:275) before the loop runs. -/
def insert_line (stop_insertion : Bool) (st : EdState) (evs : List (Bool × Line)) : EdState :=
  insert_session st false evs

/-- `run_instructions` (blob.c:351-397): scan the input line left to right
until `'\n'` or the end of the string, dispatching each character.  `ins`
supplies, for each `'i'` encountered, the events of that insertion
session.  Returns the final state and the C return value: `0` on normal
completion, `-1`/`-2` on a failed `'n'`/`'b'`, `-3` on `'q'`. -/
def run_instructions (st : EdState) (ins : List (List (Bool × Line))) :
    List Char → EdState × Int
  | [] => (st, 0)
  | c :: cs =>
    if c = '\n' then (st, 0)
    else if c = 'n' then
      let p := advance st
      if p.2 = 0 then run_instructions p.1 ins cs else p
    else if c = 'b' then
      let p := retreat st
      if p.2 = 0 then run_instructions p.1 ins cs else p
    else if c = 'p' then run_instructions st ins cs
    else if c = 'i' then run_instructions (insert_line false st (ins.headD [])) (ins.drop 1) cs
    else if c = 'l' then run_instructions st ins cs
    else if c = 'd' then run_instructions (delete_line st) ins cs
    else if c = 'q' then (st, -3)
    else if c = 'w' then run_instructions st ins cs
    else if c = 'h' then run_instructions st ins cs
    else run_instructions st ins cs

/-- The cursor invariant of the editor state: `start` points at the first
line of the buffer, node identities are pairwise distinct (distinct malloc
addresses), and a null current pointer only occurs in the empty buffer. -/
def CursorInv (st : EdState) : Prop :=
  st.start = (buf st).head?.map Line.id ∧
  ((buf st).map Line.id).Nodup ∧
  (st.after = [] → st.before = [])

instance (st : EdState) : Decidable (CursorInv st) := by
  unfold CursorInv; infer_instance

/-- The last line among `c :: ls` (`c` when `ls` is empty). -/
def lastOf (c : Line) : List Line → Line
  | [] => c
  | x :: xs => lastOf x xs

/-- Concrete line nodes used to instantiate the theorems below. -/
def lnA : Line := ⟨0, ['a']⟩

def lnB : Line := ⟨1, ['b']⟩

def lnC : Line := ⟨2, ['c']⟩

def lnD : Line := ⟨3, ['d']⟩

/-- A three-line buffer `a`, `b`, `c` with the cursor on the middle line. -/
def stMid : EdState := ⟨[lnA], [lnB, lnC], some 0⟩

/- ------------------------------------------------------------------ -/
/- Helper lemmas                                                       -/
/- ------------------------------------------------------------------ -/

theorem charray_loop_no_newline :
    ∀ (src acc : List Char), '\n' ∉ src → charray_loop acc src = (acc ++ src, []) := by
  intro src
  induction src with
  | nil => intro acc _; simp [charray_loop]
  | cons c rest ih =>
    intro acc h
    have hc : ¬ c = '\n' := by
      intro hc; exact h (by simp [hc])
    have hrest : '\n' ∉ rest := by
      intro hm; exact h (List.mem_cons_of_mem _ hm)
    simp [charray_loop, hc, ih (acc ++ [c]) hrest]

theorem charray_loop_stops :
    ∀ (src acc : List Char),
      (charray_loop acc src).2 = [] ∨ (charray_loop acc src).2.head? = some '\n' := by
  intro src
  induction src with
  | nil => intro acc; left; rfl
  | cons c rest ih =>
    intro acc
    by_cases hc : c = '\n'
    · right; simp [charray_loop, hc]
    · simpa [charray_loop, hc] using ih (acc ++ [c])

theorem charray_to_line_no_newline (L : List Char) (h : '\n' ∉ L) :
    charray_to_line L = L ++ [' '] := by
  simp [charray_to_line, charray_loop_no_newline L [] h]

/- ------------------------------------------------------------------ -/
/- C2                                                                  -/
/- ------------------------------------------------------------------ -/

/-- C2: for every non-empty byte sequence `L` with no embedded newline,
converting `L` to a character chain and back to text
(`lines_to_charray` after `charray_to_line`) yields exactly `L` followed
by one space character followed by one newline. -/
theorem chain_roundtrip (L : List Char) (i : Nat) (hne : L ≠ []) (hnl : '\n' ∉ L) :
    lines_to_charray ⟨i, charray_to_line L⟩ = L ++ [' ', '\n'] := by
  simp [lines_to_charray, charray_to_line_no_newline L hnl]

/-- Witness for `chain_roundtrip` at the line `"hi"`. -/
theorem chain_roundtrip_witness :
    lines_to_charray ⟨0, charray_to_line ['h', 'i']⟩ = ['h', 'i'] ++ [' ', '\n'] :=
  chain_roundtrip ['h', 'i'] 0 (by decide) (by decide)

/- ------------------------------------------------------------------ -/
/- C7                                                                  -/
/- ------------------------------------------------------------------ -/

/-- C7: `read_lines` never reports an error for a missing source: on a
missing file it materializes an empty file and yields the empty line
buffer, and an existing file with zero lines also yields the empty line
buffer (no lines at all). -/
theorem read_lines_missing_or_empty :
    read_lines FileStatus.notFound = Except.ok ([], create_empty_file) ∧
    read_lines (FileStatus.found []) = Except.ok ([], []) :=
  ⟨rfl, rfl⟩

/- ------------------------------------------------------------------ -/
/- C10                                                                 -/
/- ------------------------------------------------------------------ -/

/-- C10: on a NUL-terminated input the scanning loop of
`charray_to_line` stops only at a newline or at the end of the string, so
the branch dropping the last partially built chain node is unreachable:
the produced chain is always the committed characters followed by the
forced trailing space, hence ends with a space and has length at least
one. -/
theorem charray_to_line_always_space (src : List Char) :
    ((charray_loop [] src).2 = [] ∨ (charray_loop [] src).2.head? = some '\n') ∧
    charray_to_line src = (charray_loop [] src).1 ++ [' '] ∧
    (charray_to_line src).getLast? = some ' ' ∧
    1 ≤ (charray_to_line src).length := by
  have hstop := charray_loop_stops src []
  have heq : charray_to_line src = (charray_loop [] src).1 ++ [' '] := by
    unfold charray_to_line
    dsimp only
    rcases hrem : (charray_loop [] src).2 with _ | ⟨c, rest⟩
    · rfl
    · rcases hstop with h | h
      · rw [hrem] at h
        cases h
      · rw [hrem] at h
        simp at h
        simp [h]
  refine ⟨hstop, heq, ?_, ?_⟩
  · rw [heq]
    simp
  · rw [heq]
    simp

/- ------------------------------------------------------------------ -/
/- Helper lemmas for the navigation cases                              -/
/- ------------------------------------------------------------------ -/

theorem advance_snd (st : EdState) : (advance st).2 = 0 ∨ (advance st).2 = -1 := by
  obtain ⟨b, a, s⟩ := st
  rcases a with _ | ⟨c, _ | ⟨c2, rest⟩⟩ <;> simp [advance]

theorem retreat_snd (st : EdState) : (retreat st).2 = 0 ∨ (retreat st).2 = -2 := by
  obtain ⟨b, a, s⟩ := st
  rcases a with _ | ⟨c, a'⟩
  · simp [retreat]
  · rcases b with _ | ⟨p, ps⟩ <;> simp [retreat]

theorem advance_eq_iff (st : EdState) :
    advance st = (st, -1) ↔ curLn st = none ∨ nextLn st = none := by
  obtain ⟨b, a, s⟩ := st
  rcases a with _ | ⟨c, _ | ⟨c2, rest⟩⟩ <;> simp [advance, curLn, nextLn]

theorem advance_move (st : EdState) (h : nextLn st ≠ none) :
    (advance st).2 = 0 ∧ curLn (advance st).1 = nextLn st ∧
    prevLn (advance st).1 = curLn st := by
  obtain ⟨b, a, s⟩ := st
  rcases a with _ | ⟨c, _ | ⟨c2, rest⟩⟩ <;>
    simp_all [advance, curLn, nextLn, prevLn]

theorem retreat_eq_iff (st : EdState) :
    retreat st = (st, -2) ↔ curLn st = none ∨ prevLn st = none := by
  obtain ⟨b, a, s⟩ := st
  rcases a with _ | ⟨c, a'⟩
  · simp [retreat, curLn]
  · rcases b with _ | ⟨p, ps⟩ <;> simp [retreat, curLn, prevLn]

theorem retreat_move (st : EdState) (h : curLn st ≠ none) (h' : prevLn st ≠ none) :
    (retreat st).2 = 0 ∧ curLn (retreat st).1 = prevLn st ∧
    nextLn (retreat st).1 = curLn st := by
  obtain ⟨b, a, s⟩ := st
  rcases a with _ | ⟨c, a'⟩
  · simp_all [curLn]
  · rcases b with _ | ⟨p, ps⟩ <;> simp_all [retreat, curLn, nextLn, prevLn]

/- ------------------------------------------------------------------ -/
/- C4                                                                  -/
/- ------------------------------------------------------------------ -/

/-- C4: `advance` fails with the `-1` (`EndOfBuffer`) signal leaving the
whole cursor state unchanged exactly when the current line is null or has
no next line, and otherwise succeeds moving the current line to the next
one; symmetrically `retreat` fails with `-2` (`StartOfBuffer`) exactly
when the current line is null or has no previous line, and otherwise
succeeds moving the current line to the previous one. -/
theorem advance_retreat_spec (st : EdState) :
    (advance st = (st, -1) ↔ curLn st = none ∨ nextLn st = none) ∧
    (nextLn st ≠ none →
      (advance st).2 = 0 ∧ curLn (advance st).1 = nextLn st ∧
      prevLn (advance st).1 = curLn st) ∧
    (retreat st = (st, -2) ↔ curLn st = none ∨ prevLn st = none) ∧
    (curLn st ≠ none → prevLn st ≠ none →
      (retreat st).2 = 0 ∧ curLn (retreat st).1 = prevLn st ∧
      nextLn (retreat st).1 = curLn st) :=
  ⟨advance_eq_iff st, advance_move st, retreat_eq_iff st, retreat_move st⟩

/-- Witness for `advance_retreat_spec` on the three-line buffer with the
cursor on the middle line: both moves succeed. -/
theorem advance_retreat_spec_witness :
    ((advance stMid).2 = 0 ∧ curLn (advance stMid).1 = nextLn stMid ∧
      prevLn (advance stMid).1 = curLn stMid) ∧
    ((retreat stMid).2 = 0 ∧ curLn (retreat stMid).1 = prevLn stMid ∧
      nextLn (retreat stMid).1 = curLn stMid) :=
  ⟨(advance_retreat_spec stMid).2.1 (by decide),
   (advance_retreat_spec stMid).2.2.2 (by decide) (by decide)⟩

/- ------------------------------------------------------------------ -/
/- C3                                                                  -/
/- ------------------------------------------------------------------ -/

/-- C3: the interpreter scans the input left to right; it returns the
neutral signal `0` at the end of the string or at a newline, silently
skips unrecognized characters, returns `-3` at the first `q` without
executing anything after it, returns `-1`/`-2` at the first failing
`n`/`b` without executing anything after it, and otherwise executes the
move and continues scanning. -/
theorem run_instructions_scan (st : EdState) (ins : List (List (Bool × Line)))
    (cs : List Char) (c : Char) :
    run_instructions st ins [] = (st, 0) ∧
    run_instructions st ins ('\n' :: cs) = (st, 0) ∧
    (c ∉ (['\n', 'n', 'b', 'p', 'i', 'l', 'd', 'q', 'w', 'h'] : List Char) →
      run_instructions st ins (c :: cs) = run_instructions st ins cs) ∧
    run_instructions st ins ('q' :: cs) = (st, -3) ∧
    (curLn st = none ∨ nextLn st = none →
      run_instructions st ins ('n' :: cs) = (st, -1)) ∧
    (nextLn st ≠ none →
      run_instructions st ins ('n' :: cs) = run_instructions (advance st).1 ins cs) ∧
    (curLn st = none ∨ prevLn st = none →
      run_instructions st ins ('b' :: cs) = (st, -2)) ∧
    (curLn st ≠ none → prevLn st ≠ none →
      run_instructions st ins ('b' :: cs) = run_instructions (retreat st).1 ins cs) := by
  refine ⟨rfl, rfl, ?_, rfl, ?_, ?_, ?_, ?_⟩
  · intro h
    simp only [List.mem_cons, List.mem_singleton, not_or] at h
    obtain ⟨h1, h2, h3, h4, h5, h6, h7, h8, h9, h10⟩ := h
    simp [run_instructions, h1, h2, h3, h4, h5, h6, h7, h8, h9, h10]
  · intro h
    have hadv : advance st = (st, -1) := (advance_eq_iff st).2 h
    simp [run_instructions, hadv]
  · intro h
    obtain ⟨hz, hc, hp⟩ := advance_move st h
    simp [run_instructions, hz]
  · intro h
    have hret : retreat st = (st, -2) := (retreat_eq_iff st).2 h
    simp [run_instructions, hret]
  · intro h h'
    obtain ⟨hz, hc, hn⟩ := retreat_move st h h'
    simp [run_instructions, hz]

/-- Witness for `run_instructions_scan`: an unrecognized `x` is skipped,
and a failing `n` on a one-line buffer aborts the rest of the input. -/
theorem run_instructions_scan_witness :
    run_instructions ⟨[], [lnA], some 0⟩ [] ('x' :: ['q']) =
      run_instructions ⟨[], [lnA], some 0⟩ [] ['q'] ∧
    run_instructions ⟨[], [lnA], some 0⟩ [] ('n' :: ['p']) = (⟨[], [lnA], some 0⟩, -1) :=
  ⟨(run_instructions_scan ⟨[], [lnA], some 0⟩ [] ['q'] 'x').2.2.1 (by decide),
   (run_instructions_scan ⟨[], [lnA], some 0⟩ [] ['p'] 'n').2.2.2.2.1 (by decide)⟩

/- ------------------------------------------------------------------ -/
/- C9                                                                  -/
/- ------------------------------------------------------------------ -/

theorem run_signal_aux : ∀ (s : List Char) (st : EdState) (ins : List (List (Bool × Line))),
    (run_instructions st ins s).2 = 0 ∨ (run_instructions st ins s).2 = -1 ∨
    (run_instructions st ins s).2 = -2 ∨ (run_instructions st ins s).2 = -3 := by
  intro s
  induction s with
  | nil => intro st ins; exact Or.inl rfl
  | cons c cs ih =>
    intro st ins
    by_cases h1 : c = '\n'
    · left; simp [run_instructions, h1]
    · by_cases h2 : c = 'n'
      · subst h2
        rcases advance_snd st with h | h
        · have he : run_instructions st ins ('n' :: cs) =
              run_instructions (advance st).1 ins cs := by
            simp [run_instructions, h]
          rw [he]; exact ih _ _
        · have he : run_instructions st ins ('n' :: cs) = advance st := by
            simp [run_instructions, h]
          rw [he, h]; simp
      · by_cases h3 : c = 'b'
        · subst h3
          rcases retreat_snd st with h | h
          · have he : run_instructions st ins ('b' :: cs) =
                run_instructions (retreat st).1 ins cs := by
              simp [run_instructions, h]
            rw [he]; exact ih _ _
          · have he : run_instructions st ins ('b' :: cs) = retreat st := by
              simp [run_instructions, h]
            rw [he, h]; simp
        · by_cases h4 : c = 'p'
          · subst h4; exact ih st ins
          · by_cases h5 : c = 'i'
            · subst h5; exact ih _ _
            · by_cases h6 : c = 'l'
              · subst h6; exact ih st ins
              · by_cases h7 : c = 'd'
                · subst h7; exact ih _ _
                · by_cases h8 : c = 'q'
                  · subst h8; right; right; right; rfl
                  · by_cases h9 : c = 'w'
                    · subst h9; exact ih st ins
                    · by_cases h10 : c = 'h'
                      · subst h10; exact ih st ins
                      · have he : run_instructions st ins (c :: cs) =
                            run_instructions st ins cs := by
                          simp [run_instructions, h1, h2, h3, h4, h5, h6, h7, h8, h9, h10]
                        rw [he]; exact ih st ins

/-- C9: for every input string and buffer state, `run_instructions`
returns only `0`, `-1`, `-2` or `-3`; in particular it never returns
`-4`, so the `case -4` write-to-file branch of the main loop is
unreachable. -/
theorem run_instructions_signal_range (st : EdState) (ins : List (List (Bool × Line)))
    (s : List Char) :
    ((run_instructions st ins s).2 = 0 ∨ (run_instructions st ins s).2 = -1 ∨
     (run_instructions st ins s).2 = -2 ∨ (run_instructions st ins s).2 = -3) ∧
    (run_instructions st ins s).2 ≠ -4 := by
  refine ⟨run_signal_aux s st ins, ?_⟩
  rcases run_signal_aux s st ins with h | h | h | h <;> rw [h] <;> decide

/-- Witness for `run_instructions_signal_range` at the input line `q`. -/
theorem run_instructions_signal_range_witness :
    ((run_instructions ⟨[], [], none⟩ [] ['q']).2 = 0 ∨
     (run_instructions ⟨[], [], none⟩ [] ['q']).2 = -1 ∨
     (run_instructions ⟨[], [], none⟩ [] ['q']).2 = -2 ∨
     (run_instructions ⟨[], [], none⟩ [] ['q']).2 = -3) ∧
    (run_instructions ⟨[], [], none⟩ [] ['q']).2 ≠ -4 :=
  run_instructions_signal_range ⟨[], [], none⟩ [] ['q']

/- ------------------------------------------------------------------ -/
/- C1                                                                  -/
/- ------------------------------------------------------------------ -/

theorem head_id_ne_mid (A : List Line) (c : Line) (R : List Line) (hA : A ≠ [])
    (hnd : ((A ++ c :: R).map Line.id).Nodup) :
    ((A ++ c :: R).head?).map Line.id ≠ some c.id := by
  rcases A with _ | ⟨a, A'⟩
  · exact absurd rfl hA
  · rw [List.cons_append, List.map_cons, List.nodup_cons] at hnd
    intro h
    simp only [List.cons_append, List.head?_cons, Option.map_some'] at h
    apply hnd.1
    rw [Option.some_inj] at h
    rw [h]
    exact List.mem_map_of_mem Line.id (by simp)

/-- C1 counterexample: in the three-line buffer `a b c` with the cursor on
the middle line `b`, the deleted line has a next neighbour (`c`), yet the
new current returned by `delete_line` is the previous neighbour `a`, not
`c`: the claimed next-first cursor reassignment priority is false. -/
theorem delete_line_next_priority_cex :
    nextLn stMid = some lnC ∧ prevLn stMid = some lnA ∧
    curLn (delete_line stMid) = some lnA ∧ curLn (delete_line stMid) ≠ some lnC := by
  decide

/-- C1 (amended): deleting when the current line is null is a no-op
returning null.  Otherwise the current line is removed from the buffer,
its former previous and next neighbours relinked to each other; under the
cursor invariant, if the deleted line was `start` then `start` moves to
the deleted line's next (possibly null) and otherwise `start` is
unchanged; and the returned new current is the deleted line's previous if
one exists, else the deleted line's next if one exists, else null. -/
theorem delete_line_spec (st : EdState) (cur : Line) (rest : List Line) :
    (st.after = [] → delete_line st = st ∧ curLn (delete_line st) = none) ∧
    (st.after = cur :: rest →
      buf (delete_line st) = st.before.reverse ++ rest ∧
      (prevLn st ≠ none → curLn (delete_line st) = prevLn st) ∧
      (prevLn st = none → curLn (delete_line st) = rest.head?) ∧
      (CursorInv st → st.before = [] → (delete_line st).start = rest.head?.map Line.id) ∧
      (CursorInv st → st.before ≠ [] → (delete_line st).start = st.start)) := by
  obtain ⟨b, a, s⟩ := st
  constructor
  · intro h
    subst h
    exact ⟨rfl, rfl⟩
  · intro h
    subst h
    rcases b with _ | ⟨p, ps⟩
    · refine ⟨by simp [delete_line, buf], ?_, ?_, ?_, ?_⟩
      · intro h'; exact absurd rfl h'
      · intro _; simp [delete_line, curLn]
      · intro hInv _
        have hs : s = some cur.id := by
          have := hInv.1
          simpa [buf] using this
        simp [delete_line, hs]
      · intro _ hne; exact absurd rfl hne
    · refine ⟨?_, ?_, ?_, ?_, ?_⟩
      · simp [delete_line, buf]
      · intro _; simp [delete_line, curLn, prevLn]
      · intro h'; simp [prevLn] at h'
      · intro _ h'; simp at h'
      · intro hInv _
        have hne : s ≠ some cur.id := by
          have h1 : s = ((p :: ps).reverse ++ cur :: rest).head?.map Line.id := hInv.1
          rw [h1]
          exact head_id_ne_mid ((p :: ps).reverse) cur rest (by simp) hInv.2.1
        simp [delete_line, hne]

/-- Witness for `delete_line_spec`: deleting the middle line of the
three-line buffer returns the previous line and leaves `start`
unchanged. -/
theorem delete_line_spec_witness :
    curLn (delete_line stMid) = prevLn stMid ∧ (delete_line stMid).start = stMid.start :=
  ⟨((delete_line_spec stMid lnB [lnC]).2 rfl).2.1 (by decide),
   ((delete_line_spec stMid lnB [lnC]).2 rfl).2.2.2.2 (by decide) (by decide)⟩

/- ------------------------------------------------------------------ -/
/- C5                                                                  -/
/- ------------------------------------------------------------------ -/

theorem foldl_insert_cons : ∀ (ls B : List Line) (c : Line) (R : List Line) (s : Option Nat),
    ls.foldl insert_one ⟨B, c :: R, s⟩ =
      ⟨((c :: ls).dropLast).reverse ++ B, lastOf c ls :: R, s⟩ := by
  intro ls
  induction ls with
  | nil => intro B c R s; simp [lastOf]
  | cons l ls' ih =>
    intro B c R s
    have h1 : (l :: ls').foldl insert_one ⟨B, c :: R, s⟩ =
        ls'.foldl insert_one ⟨c :: B, l :: R, s⟩ := rfl
    rw [h1, ih]
    simp [lastOf, List.reverse_cons, List.append_assoc]

theorem dropLast_concat_lastOf : ∀ (ls : List Line) (c : Line),
    (c :: ls).dropLast ++ [lastOf c ls] = c :: ls := by
  intro ls
  induction ls with
  | nil => intro c; rfl
  | cons x xs ih =>
    intro c
    have h1 : (c :: x :: xs).dropLast = c :: (x :: xs).dropLast := rfl
    have h2 : lastOf c (x :: xs) = lastOf x xs := rfl
    rw [h1, h2, List.cons_append, ih x]

theorem getLast?_eq_lastOf : ∀ (ls : List Line) (c : Line),
    (c :: ls).getLast? = some (lastOf c ls) := by
  intro ls
  induction ls with
  | nil => intro c; rfl
  | cons x xs ih =>
    intro c
    rw [List.getLast?_cons_cons]
    exact ih x

/-- C5: inserting into an empty buffer makes the new line both `start`
and current with no links; each further committed line is linked
immediately after the current line with the current pointer advancing to
it; and after inserting the lines `ls` into an initially empty buffer the
buffer holds exactly `ls` in insertion order, with `start` at the first
inserted line and the current line the last inserted one. -/
theorem insert_into_empty_buffer (ls : List Line) (st : EdState) (l cur : Line)
    (rest : List Line) :
    insert_one ⟨[], [], none⟩ l = ⟨[], [l], some l.id⟩ ∧
    (st.after = cur :: rest →
      insert_one st l = ⟨cur :: st.before, l :: rest, st.start⟩ ∧
      buf (insert_one st l) = st.before.reverse ++ cur :: l :: rest) ∧
    (ls ≠ [] →
      buf (ls.foldl insert_one ⟨[], [], none⟩) = ls ∧
      curLn (ls.foldl insert_one ⟨[], [], none⟩) = ls.getLast? ∧
      (ls.foldl insert_one ⟨[], [], none⟩).start = ls.head?.map Line.id) := by
  refine ⟨rfl, ?_, ?_⟩
  · obtain ⟨b, a, s⟩ := st
    intro h
    have h' : a = cur :: rest := h
    subst h'
    exact ⟨rfl, by simp [insert_one, buf, List.reverse_cons, List.append_assoc]⟩
  · intro h
    rcases ls with _ | ⟨x, xs⟩
    · exact absurd rfl h
    · have h1 : (x :: xs).foldl insert_one ⟨[], [], none⟩ =
          xs.foldl insert_one ⟨[], [x], some x.id⟩ := rfl
      rw [h1, foldl_insert_cons]
      refine ⟨?_, ?_, rfl⟩
      · show (((x :: xs).dropLast.reverse ++ []).reverse ++ [lastOf x xs]) = x :: xs
        rw [List.append_nil, List.reverse_reverse, dropLast_concat_lastOf]
      · show some (lastOf x xs) = (x :: xs).getLast?
        rw [getLast?_eq_lastOf]

/-- Witness for `insert_into_empty_buffer`: inserting after the middle
line of the three-line buffer, and inserting the two lines `a`, `b` into
an empty buffer. -/
theorem insert_into_empty_buffer_witness :
    insert_one stMid lnD = ⟨lnB :: stMid.before, lnD :: [lnC], stMid.start⟩ ∧
    (buf ([lnA, lnB].foldl insert_one ⟨[], [], none⟩) = [lnA, lnB] ∧
      curLn ([lnA, lnB].foldl insert_one ⟨[], [], none⟩) = [lnA, lnB].getLast? ∧
      ([lnA, lnB].foldl insert_one ⟨[], [], none⟩).start = [lnA, lnB].head?.map Line.id) :=
  ⟨((insert_into_empty_buffer [lnA, lnB] stMid lnD lnB [lnC]).2.1 rfl).1,
   (insert_into_empty_buffer [lnA, lnB] stMid lnD lnB [lnC]).2.2 (by decide)⟩

/- ------------------------------------------------------------------ -/
/- C6                                                                  -/
/- ------------------------------------------------------------------ -/

theorem insert_session_all_false : ∀ (pre : List (Bool × Line)) (st : EdState),
    (∀ e ∈ pre, e.1 = false) →
    insert_session st false pre = (pre.map Prod.snd).foldl insert_one st := by
  intro pre
  induction pre with
  | nil => intro st _; rfl
  | cons e rest ih =>
    intro st h
    obtain ⟨sig, ln⟩ := e
    have hsig : sig = false := h (sig, ln) (by simp)
    subst hsig
    exact ih (insert_one st ln) (fun e he => h e (List.mem_cons_of_mem _ he))

theorem insert_session_cancel : ∀ (pre : List (Bool × Line)) (st : EdState) (l : Line)
    (rest : List (Bool × Line)), (∀ e ∈ pre, e.1 = false) →
    insert_session st false (pre ++ (true, l) :: rest) =
      (pre.map Prod.snd).foldl insert_one st := by
  intro pre
  induction pre with
  | nil => intro st l rest _; rfl
  | cons e pre' ih =>
    intro st l rest h
    obtain ⟨sig, ln⟩ := e
    have hsig : sig = false := h (sig, ln) (by simp)
    subst hsig
    exact ih (insert_one st ln) l rest (fun e he => h e (List.mem_cons_of_mem _ he))

/-- C6: the process-wide cancellation flag is cleared at the start of
every insertion session (its value on entry is irrelevant), and the loop
polls the flag after reading each raw line, before committing it: when
the first set flag is observed, the pending line `l` is discarded and the
loop exits, so exactly the previously committed lines `pre` end up
inserted; with no cancellation all read lines are committed in order. -/
theorem insert_cancellation (b b' : Bool) (st : EdState) (evs pre : List (Bool × Line))
    (l : Line) (rest : List (Bool × Line)) :
    insert_line b st evs = insert_line b' st evs ∧
    ((∀ e ∈ pre, e.1 = false) →
      insert_line b st (pre ++ (true, l) :: rest) =
        (pre.map Prod.snd).foldl insert_one st ∧
      insert_line b st pre = (pre.map Prod.snd).foldl insert_one st) :=
  ⟨rfl, fun h => ⟨insert_session_cancel pre st l rest h, insert_session_all_false pre st h⟩⟩

/-- Witness for `insert_cancellation`: one line committed, then the
cancelled read discards the pending line `b`. -/
theorem insert_cancellation_witness :
    insert_line true ⟨[], [], none⟩ ([(false, lnA)] ++ (true, lnB) :: []) =
      ([(false, lnA)].map Prod.snd).foldl insert_one ⟨[], [], none⟩ ∧
    insert_line true ⟨[], [], none⟩ [(false, lnA)] =
      ([(false, lnA)].map Prod.snd).foldl insert_one ⟨[], [], none⟩ :=
  (insert_cancellation true false ⟨[], [], none⟩ [] [(false, lnA)] lnB []).2 (by decide)

/- ------------------------------------------------------------------ -/
/- C8                                                                  -/
/- ------------------------------------------------------------------ -/

theorem zipper_shift (b : List Line) (c : Line) (X : List Line) :
    (c :: b).reverse ++ X = b.reverse ++ c :: X := by
  simp [List.reverse_cons, List.append_assoc]

theorem head?_append_cons (A : List Line) (c : Line) (X Y : List Line) :
    (A ++ c :: X).head? = (A ++ c :: Y).head? := by
  rcases A with _ | ⟨a, A'⟩ <;> rfl

theorem inv_advance (st : EdState) (h : CursorInv st) : CursorInv (advance st).1 := by
  obtain ⟨b, a, s⟩ := st
  rcases a with _ | ⟨c, _ | ⟨c2, rest⟩⟩
  · exact h
  · exact h
  · obtain ⟨h1, h2, h3⟩ := h
    refine ⟨?_, ?_, ?_⟩
    · show s = (((c :: b).reverse ++ c2 :: rest).head?).map Line.id
      rw [zipper_shift]
      exact h1
    · show (((c :: b).reverse ++ c2 :: rest).map Line.id).Nodup
      rw [zipper_shift]
      exact h2
    · intro hx
      exact absurd hx (List.cons_ne_nil _ _)

theorem inv_retreat (st : EdState) (h : CursorInv st) : CursorInv (retreat st).1 := by
  obtain ⟨b, a, s⟩ := st
  rcases a with _ | ⟨c, a'⟩
  · exact h
  · rcases b with _ | ⟨p, ps⟩
    · exact h
    · obtain ⟨h1, h2, h3⟩ := h
      refine ⟨?_, ?_, ?_⟩
      · show s = ((ps.reverse ++ p :: c :: a').head?).map Line.id
        rw [← zipper_shift]
        exact h1
      · show ((ps.reverse ++ p :: c :: a').map Line.id).Nodup
        rw [← zipper_shift]
        exact h2
      · intro hx
        exact absurd hx (List.cons_ne_nil _ _)

theorem inv_delete (st : EdState) (h : CursorInv st) : CursorInv (delete_line st) := by
  obtain ⟨b, a, s⟩ := st
  rcases a with _ | ⟨cur, rest⟩
  · exact h
  · obtain ⟨h1, h2, h3⟩ := h
    rcases b with _ | ⟨p, ps⟩
    · have hs : s = some cur.id := by simpa [buf] using h1
      have hd : delete_line ⟨[], cur :: rest, s⟩ = ⟨[], rest, rest.head?.map Line.id⟩ := by
        simp [delete_line, hs]
      rw [hd]
      have h2' : ((cur :: rest).map Line.id).Nodup := by simpa [buf] using h2
      rw [List.map_cons, List.nodup_cons] at h2'
      refine ⟨by simp [buf], ?_, fun _ => rfl⟩
      show ((([] : List Line).reverse ++ rest).map Line.id).Nodup
      simpa using h2'.2
    · have hne : s ≠ some cur.id := by
        have e1 : s = ((p :: ps).reverse ++ cur :: rest).head?.map Line.id := h1
        rw [e1]
        exact head_id_ne_mid ((p :: ps).reverse) cur rest (by simp) h2
      have hd : delete_line ⟨p :: ps, cur :: rest, s⟩ = ⟨ps, p :: rest, s⟩ := by
        simp [delete_line, hne]
      rw [hd]
      refine ⟨?_, ?_, ?_⟩
      · show s = ((ps.reverse ++ p :: rest).head?).map Line.id
        have e1 : s = ((p :: ps).reverse ++ cur :: rest).head?.map Line.id := h1
        rw [e1, zipper_shift, head?_append_cons ps.reverse p (cur :: rest) rest]
      · show ((ps.reverse ++ p :: rest).map Line.id).Nodup
        have h2' : ((ps.reverse ++ p :: cur :: rest).map Line.id).Nodup := by
          rw [← zipper_shift]
          exact h2
        have hsub : List.Sublist (ps.reverse ++ p :: rest) (ps.reverse ++ p :: cur :: rest) :=
          ((List.sublist_cons_self cur rest).cons₂ p).append_left ps.reverse
        exact h2'.sublist (hsub.map Line.id)
      · intro hx
        exact absurd hx (List.cons_ne_nil _ _)

theorem nodup_mid (A : List Line) (c l : Line) (R : List Line)
    (hnd : ((A ++ c :: R).map Line.id).Nodup)
    (hfresh : l.id ∉ (A ++ c :: R).map Line.id) :
    ((A ++ c :: l :: R).map Line.id).Nodup := by
  have e1 : (A.map Line.id ++ [c.id]) ++ R.map Line.id = (A ++ c :: R).map Line.id := by
    simp
  have e2 : (A.map Line.id ++ [c.id]) ++ l.id :: R.map Line.id =
      (A ++ c :: l :: R).map Line.id := by
    simp
  have hp := @List.perm_middle Nat l.id (A.map Line.id ++ [c.id]) (R.map Line.id)
  have h0 : (l.id :: ((A.map Line.id ++ [c.id]) ++ R.map Line.id)).Nodup := by
    rw [List.nodup_cons, e1]
    exact ⟨hfresh, hnd⟩
  have h1 := hp.symm.nodup h0
  rw [← e2]
  exact h1

theorem inv_insert_one (st : EdState) (h : CursorInv st) (l : Line)
    (hfresh : l.id ∉ (buf st).map Line.id) : CursorInv (insert_one st l) := by
  obtain ⟨b, a, s⟩ := st
  rcases a with _ | ⟨cur, rest⟩
  · refine ⟨by simp [insert_one, buf], by simp [insert_one, buf], ?_⟩
    intro hx
    exact absurd hx (List.cons_ne_nil _ _)
  · obtain ⟨h1, h2, h3⟩ := h
    refine ⟨?_, ?_, ?_⟩
    · show s = (((cur :: b).reverse ++ l :: rest).head?).map Line.id
      rw [zipper_shift, head?_append_cons b.reverse cur (l :: rest) rest]
      exact h1
    · show (((cur :: b).reverse ++ l :: rest).map Line.id).Nodup
      rw [zipper_shift]
      exact nodup_mid b.reverse cur l rest h2 hfresh
    · intro hx
      exact absurd hx (List.cons_ne_nil _ _)

theorem mem_buf_insert_one (st : EdState) (l : Line) (x : Nat)
    (hx : x ∈ (buf (insert_one st l)).map Line.id) :
    x ∈ (buf st).map Line.id ∨ x = l.id := by
  obtain ⟨b, a, s⟩ := st
  rcases a with _ | ⟨cur, rest⟩
  · right
    simpa [insert_one, buf] using hx
  · have e1 : buf (insert_one ⟨b, cur :: rest, s⟩ l) = b.reverse ++ cur :: l :: rest := by
      show (cur :: b).reverse ++ l :: rest = b.reverse ++ cur :: l :: rest
      exact zipper_shift b cur (l :: rest)
    rw [e1] at hx
    simp only [buf, List.map_append, List.map_cons, List.mem_append, List.mem_cons] at hx ⊢
    tauto

theorem inv_insert_session : ∀ (evs : List (Bool × Line)) (st : EdState),
    CursorInv st → (∀ e ∈ evs, e.2.id ∉ (buf st).map Line.id) →
    ((evs.map (fun e => e.2.id)).Nodup) → CursorInv (insert_session st false evs) := by
  intro evs
  induction evs with
  | nil => intro st h _ _; exact h
  | cons e rest ih =>
    intro st h hfresh hnd
    obtain ⟨sig, ln⟩ := e
    rw [List.map_cons, List.nodup_cons] at hnd
    rcases sig with _ | _
    · have h' : CursorInv (insert_one st ln) :=
        inv_insert_one st h ln (hfresh (false, ln) (by simp))
      have hfresh' : ∀ e ∈ rest, e.2.id ∉ (buf (insert_one st ln)).map Line.id := by
        intro e he hmem
        rcases mem_buf_insert_one st ln e.2.id hmem with hm | hm
        · exact hfresh e (List.mem_cons_of_mem _ he) hm
        · apply hnd.1
          rw [← hm]
          exact List.mem_map_of_mem _ he
      exact ih (insert_one st ln) h' hfresh' hnd.2
    · exact h

/-- C8: the cursor invariant — `start` is the first line of the buffer,
node identities are distinct and a null current pointer only occurs in an
empty buffer — is preserved by every interpreter operation: `advance`,
`retreat`, `delete_line`, a committed insertion of a freshly allocated
line, and a whole insertion session of freshly allocated lines; moreover
under the invariant a non-null current line is the suffix of the buffer
at the cursor position, hence reachable from `start` (the buffer's first
line) by following next links. -/
theorem interpreter_preserves_cursor_inv (st : EdState) (h : CursorInv st) :
    ((buf st).drop st.before.length = st.after ∧
      (st.after ≠ [] → st.start = ((buf st).head?).map Line.id)) ∧
    CursorInv (advance st).1 ∧
    CursorInv (retreat st).1 ∧
    CursorInv (delete_line st) ∧
    (∀ l : Line, l.id ∉ (buf st).map Line.id → CursorInv (insert_one st l)) ∧
    (∀ (b : Bool) (evs : List (Bool × Line)),
      (∀ e ∈ evs, e.2.id ∉ (buf st).map Line.id) →
      ((evs.map (fun e => e.2.id)).Nodup) →
      CursorInv (insert_line b st evs)) := by
  refine ⟨⟨?_, fun _ => h.1⟩, inv_advance st h, inv_retreat st h, inv_delete st h,
    fun l hf => inv_insert_one st h l hf,
    fun b evs hf hnd => inv_insert_session evs st h hf hnd⟩
  show (st.before.reverse ++ st.after).drop st.before.length = st.after
  rw [← List.length_reverse st.before]
  exact List.drop_left _ _

/-- Witness for `interpreter_preserves_cursor_inv` on the three-line
buffer with the cursor in the middle and a fresh fourth line. -/
theorem interpreter_preserves_cursor_inv_witness :
    CursorInv (advance stMid).1 ∧ CursorInv (delete_line stMid) ∧
    CursorInv (insert_one stMid lnD) ∧
    CursorInv (insert_line false stMid [(false, lnD)]) := by
  have h := interpreter_preserves_cursor_inv stMid (by decide)
  exact ⟨h.2.1, h.2.2.2.1, h.2.2.2.2.1 lnD (by decide),
    h.2.2.2.2.2 false [(false, lnD)] (by decide) (by decide)⟩
